import Mathlib

/-!
Shallow embedding of pycoinnet/Blockfetcher.py.

The Blockfetcher schedules block downloads over several peers.  Its state
consists of:
  - a priority queue of pending requests (tuples (priority, block_hash,
    future, peers_tried)), here QItem values referring to a request slot;
  - a retry priority queue of (retry_time, item) pairs;
  - a weak dictionary from block hash to future (here an association list
    from hash to slot index);
  - the futures themselves (here a list of request slots, each holding an
    optional result and the mutable peers_tried set of the tuple).

asyncio priority queues are modelled as lists kept sorted by the tuple
order used by the source (priority, hash, then the slot index as a
deterministic stand-in for the final tuple component); popping takes the
head.  Wall-clock times are rationals.  Coroutine points where _get_batch
would block forever in a single invocation (an empty request queue with an
empty batch) are modelled by returning none.
-/

/-- A block payload as seen by handle_msg: its content hash and a body. -/
structure Block where
  hash : Nat
  body : Nat
deriving DecidableEq

/-- The mutable per-request state shared between the queue tuples and the
futures dictionary: the future's result slot and the peers_tried set
(kept as a list in insertion order). -/
structure ReqState where
  result : Option Block
  tried : List Nat
deriving DecidableEq

/-- One tuple of the block-hash priority queue: (priority, block_hash,
future, peers_tried); the future and its peers_tried set are referred to
by the slot index fid. -/
structure QItem where
  pri : Int
  bh : Nat
  fid : Nat
deriving DecidableEq

/-- Tuple order of the block-hash priority queue: (priority, hash, slot). -/
def qleB (a b : QItem) : Bool :=
  decide (a.pri < b.pri) ||
    (decide (a.pri = b.pri) &&
      (decide (a.bh < b.bh) || (decide (a.bh = b.bh) && decide (a.fid ≤ b.fid))))

/-- Insert into the sorted list modelling the block-hash priority queue. -/
def qinsert (it : QItem) : List QItem → List QItem
  | [] => [it]
  | x :: xs => if qleB it x then it :: x :: xs else x :: qinsert it xs

/-- Tuple order of the retry priority queue: (retry_time, item tuple). -/
def rleB (a b : ℚ × QItem) : Bool :=
  decide (a.1 < b.1) || (decide (a.1 = b.1) && qleB a.2 b.2)

/-- Insert into the sorted list modelling the retry priority queue. -/
def rinsert (e : ℚ × QItem) : List (ℚ × QItem) → List (ℚ × QItem)
  | [] => [e]
  | x :: xs => if rleB e x then e :: x :: xs else x :: rinsert e xs

/-- Dictionary lookup: self.futures.get(bh). -/
def lookupTab : List (Nat × Nat) → Nat → Option Nat
  | [], _ => none
  | e :: rest, h => if e.1 = h then some e.2 else lookupTab rest h

/-- Dictionary deletion: del self.futures[bh]. -/
def tabErase : List (Nat × Nat) → Nat → List (Nat × Nat)
  | [], _ => []
  | e :: rest, h => if e.1 = h then tabErase rest h else e :: tabErase rest h

/-- Dictionary update: self.futures[bh] = f (overwrites a prior entry). -/
def tabInsert (t : List (Nat × Nat)) (h fid : Nat) : List (Nat × Nat) :=
  (h, fid) :: tabErase t h

/-- The result slot of future fid (future.done() iff this is some). -/
def resultOf (reqs : List ReqState) (fid : Nat) : Option Block :=
  (reqs.getD fid ⟨none, []⟩).result

/-- The peers_tried set attached to request fid. -/
def triedOf (reqs : List ReqState) (fid : Nat) : List Nat :=
  (reqs.getD fid ⟨none, []⟩).tried

/-- The Blockfetcher's mutable state. -/
structure FState where
  queue : List QItem
  retryQ : List (ℚ × QItem)
  table : List (Nat × Nat)
  reqs : List ReqState
deriving DecidableEq

/-- A freshly constructed Blockfetcher: both queues and the futures
dictionary empty. -/
def emptyState : FState := ⟨[], [], [], []⟩

/-- Constructor configuration of the Blockfetcher. -/
structure Config where
  max_batch_size : Nat
  initial_batch_size : Nat
  target_batch_time : ℚ
  max_batch_timeout : ℚ

/-- fetch_blocks: for each (block_hash, priority) pair create a future
with an empty peers_tried set, push the tuple into the block-hash
priority queue, record the future in the dictionary, and return the
futures (slot indices) in input order. -/
def fetch_blocks (s : FState) : List (Nat × Int) → FState × List Nat
  | [] => (s, [])
  | (bh, pri) :: rest =>
    let fid := s.reqs.length
    let s1 : FState :=
      { queue := qinsert ⟨pri, bh, fid⟩ s.queue
        retryQ := s.retryQ
        table := tabInsert s.table bh fid
        reqs := s.reqs ++ [⟨none, []⟩] }
    let p := fetch_blocks s1 rest
    (p.1, fid :: p.2)

/-- handle_msg: on a message named block, look the payload's hash up in
the futures dictionary; if a not-yet-done future is found, set its result
and delete the dictionary entry; otherwise do nothing.  Messages with any
other name are ignored. -/
def handle_msg (s : FState) (name : String) (b : Block) : FState :=
  if name = "block" then
    match lookupTab s.table b.hash with
    | none => s
    | some fid =>
      match s.reqs.get? fid with
      | none => s
      | some r =>
        if r.result.isSome then s
        else
          { s with
            reqs := s.reqs.set fid { r with result := some b }
            table := tabErase s.table b.hash }
  else s

/-- The retry sweep at the top of _get_batch.  rt is the local variable
retry_time, initially now + max_batch_timeout; the sweep pops expired
entries (reassigning rt each time), pushes still-unresolved ones back
into the block-hash queue, and stops at the first entry whose deadline
lies in the future, putting it back.  Returns the final value of rt, the
remaining retry queue and the updated block-hash queue. -/
def sweep (now : ℚ) (reqs : List ReqState) :
    ℚ → List (ℚ × QItem) → List QItem → ℚ × List (ℚ × QItem) × List QItem
  | rt, [], q => (rt, [], q)
  | _, (t, it) :: rest, q =>
    if now < t then (t, (t, it) :: rest, q)
    else
      let q1 := if (resultOf reqs it.fid).isSome then q else qinsert it q
      sweep now reqs t rest q1

/-- Re-push the skipped tuples into the block-hash queue after the batch
build loop. -/
def requeue (skipped : List QItem) (q : List QItem) : List QItem :=
  skipped.foldl (fun acc it => qinsert it acc) q

/-- The batch build loop of _get_batch.  Pops tuples from the block-hash
queue while the batch is smaller than batch_size: a tuple whose future is
done is dropped; one whose peers_tried already holds the peer is set
aside in skipped; otherwise the peer is added to peers_tried, the hash to
the outgoing inv items, the future to the batch, and a retry entry with
deadline rt is pushed.  An empty queue ends the loop when the batch is
nonempty and blocks forever otherwise (modelled as none).  Returns the
final queue (with skipped tuples re-pushed), slots, retry queue, inv
hashes and batch futures. -/
def buildLoop (peer bsize : Nat) (rt : ℚ) :
    List QItem → List ReqState → List (ℚ × QItem) → List QItem → List Nat → List Nat →
    Option (List QItem × List ReqState × List (ℚ × QItem) × List Nat × List Nat)
  | [], reqs, retryQ, skipped, invs, futs =>
    if bsize ≤ futs.length then some (requeue skipped [], reqs, retryQ, invs, futs)
    else if futs.isEmpty then none
    else some (requeue skipped [], reqs, retryQ, invs, futs)
  | it :: rest, reqs, retryQ, skipped, invs, futs =>
    if bsize ≤ futs.length then
      some (requeue skipped (it :: rest), reqs, retryQ, invs, futs)
    else if (resultOf reqs it.fid).isSome then
      buildLoop peer bsize rt rest reqs retryQ skipped invs futs
    else if peer ∈ triedOf reqs it.fid then
      buildLoop peer bsize rt rest reqs retryQ (skipped ++ [it]) invs futs
    else
          buildLoop peer bsize rt rest
            (reqs.set it.fid ⟨none, triedOf reqs it.fid ++ [peer]⟩)
            (rinsert (rt, it) retryQ) skipped (invs ++ [it.bh]) (futs ++ [it.fid])

/-- _get_batch(batch_size, peer) invoked at wall-clock time now: run the
retry sweep, then the batch build loop.  Returns the new state, the batch
futures, and the hashes of the sent inv items; none models the invocation
blocking forever on an empty queue. -/
def get_batch (cfg : Config) (s : FState) (bsize peer : Nat) (now : ℚ) :
    Option (FState × List Nat × List Nat) :=
  let sw := sweep now s.reqs (now + cfg.max_batch_timeout) s.retryQ s.queue
  match buildLoop peer bsize sw.1 sw.2.2 s.reqs sw.2.1 [] [] [] with
  | none => none
  | some (q2, reqs2, retryQ2, invs, futs) =>
    some ({ queue := q2, retryQ := retryQ2, table := s.table, reqs := reqs2 }, futs, invs)

/-- Python's int() applied to a rational: truncation toward zero. -/
def pyInt (q : ℚ) : ℤ := if 0 ≤ q then ⌊q⌋ else ⌈q⌉

/-- The adaptive batch-size computation at the bottom of _fetcher_loop:
time_per_item = batch_time / max(1, item_count) and
batch_size = min(int(target_batch_time / time_per_item) + 1,
max_batch_size).  Division of a float by 0.0 raises ZeroDivisionError in
Python, modelled as none. -/
def nextBatchSize (cfg : Config) (elapsed : ℚ) (itemCount : Nat) : Option ℤ :=
  let tpi : ℚ := elapsed / ((max 1 itemCount : Nat) : ℚ)
  if tpi = 0 then none
  else some (min (pyInt (cfg.target_batch_time / tpi) + 1) (cfg.max_batch_size : ℤ))

/-- The batch futures of a get_batch outcome (empty when it blocked). -/
def batchFuts (o : Option (FState × List Nat × List Nat)) : List Nat :=
  match o with
  | none => []
  | some (_, futs, _) => futs

/-- The sent inv hashes of a get_batch outcome (empty when it blocked). -/
def batchInvs (o : Option (FState × List Nat × List Nat)) : List Nat :=
  match o with
  | none => []
  | some (_, _, invs) => invs

/-- The state after a get_batch outcome (unchanged when it blocked). -/
def afterBatch (s : FState) (o : Option (FState × List Nat × List Nat)) : FState :=
  match o with
  | none => s
  | some (s2, _, _) => s2

/-- One externally observable step of the Blockfetcher: a fetch_blocks
call, a handle_msg call, or a completed _get_batch invocation by some
peer's fetcher loop. -/
inductive Step (cfg : Config) : FState → FState → Prop
  | submit (s : FState) (pairs : List (Nat × Int)) :
      Step cfg s (fetch_blocks s pairs).1
  | deliver (s : FState) (name : String) (b : Block) :
      Step cfg s (handle_msg s name b)
  | batch (s : FState) (bsize peer : Nat) (now : ℚ) (r : FState × List Nat × List Nat)
      (h : get_batch cfg s bsize peer now = some r) :
      Step cfg s r.1

/-! ### Helper lemmas on list access and the dictionary -/

theorem getD_set_self {α : Type} (l : List α) (i : Nat) (a d : α) (h : i < l.length) :
    (l.set i a).getD i d = a := by
  induction l generalizing i with
  | nil => simp at h
  | cons x xs ih =>
    cases i with
    | zero => rfl
    | succ j => simpa using ih j (by simpa using h)

theorem getD_set_ne {α : Type} (l : List α) (i j : Nat) (a d : α) (h : j ≠ i) :
    (l.set i a).getD j d = l.getD j d := by
  induction l generalizing i j with
  | nil => rfl
  | cons x xs ih =>
    cases i with
    | zero => cases j with
      | zero => exact absurd rfl h
      | succ j2 => rfl
    | succ i2 => cases j with
      | zero => rfl
      | succ j2 => simpa using ih i2 j2 (fun he => h (by rw [he]))

theorem lookupTab_erase_self (t : List (Nat × Nat)) (h : Nat) :
    lookupTab (tabErase t h) h = none := by
  induction t with
  | nil => rfl
  | cons e rest ih =>
    by_cases he : e.1 = h
    · simpa [tabErase, he] using ih
    · simpa [tabErase, lookupTab, he] using ih

theorem lookupTab_erase_other (t : List (Nat × Nat)) (h h2 : Nat) (hne : h2 ≠ h) :
    lookupTab (tabErase t h) h2 = lookupTab t h2 := by
  induction t with
  | nil => rfl
  | cons e rest ih =>
    by_cases he : e.1 = h
    · have he2 : ¬ e.1 = h2 := fun hc => hne (hc ▸ he)
      simp only [tabErase, if_pos he, lookupTab, if_neg he2]
      exact ih
    · simp only [tabErase, if_neg he, lookupTab]
      rw [ih]

theorem lookupTab_insert (t : List (Nat × Nat)) (h fid h2 : Nat) :
    lookupTab (tabInsert t h fid) h2 =
      if h2 = h then some fid else lookupTab t h2 := by
  by_cases he : h2 = h
  · simp [tabInsert, lookupTab, he]
  · have hne : ¬ ((h, fid).1 = h2) := fun hc => he hc.symm
    simp only [tabInsert, lookupTab, if_neg hne, if_neg he]
    exact lookupTab_erase_other t h h2 he

theorem lookupTab_mem (t : List (Nat × Nat)) (h fid : Nat)
    (hl : lookupTab t h = some fid) : (h, fid) ∈ t := by
  induction t with
  | nil => simp [lookupTab] at hl
  | cons e rest ih =>
    by_cases he : e.1 = h
    · simp only [lookupTab, if_pos he] at hl
      have : e = (h, fid) := by
        cases e
        simp only [Option.some.injEq] at hl
        simp_all
      exact this ▸ List.mem_cons_self e rest
    · simp only [lookupTab, if_neg he] at hl
      exact List.mem_cons_of_mem e (ih hl)

/-! ### C1, C9, C10: the adaptive batch-size computation and ignored messages -/

/-- C1: on completion of a batch that resolved k items in elapsed time T > 0,
the next batch size computed by the fetcher loop equals
min(maxBatchSize, floor(targetBatchTime / (T / max(1,k))) + 1), and (for a
positive maxBatchSize configuration) is never below 1. -/
theorem next_batch_size_formula (cfg : Config) (elapsed : ℚ) (k : Nat)
    (hT : 0 < elapsed) (htgt : 0 ≤ cfg.target_batch_time)
    (hmax : 1 ≤ cfg.max_batch_size) :
    nextBatchSize cfg elapsed k =
      some (min ((cfg.max_batch_size : ℤ))
        (⌊cfg.target_batch_time / (elapsed / ((max 1 k : Nat) : ℚ))⌋ + 1)) ∧
    ∀ v : ℤ, nextBatchSize cfg elapsed k = some v → 1 ≤ v := by
  have hden : (0 : ℚ) < ((max 1 k : Nat) : ℚ) := by
    have h1 : (1 : Nat) ≤ max 1 k := le_max_left 1 k
    exact_mod_cast Nat.lt_of_lt_of_le Nat.zero_lt_one h1
  have htpi : 0 < elapsed / ((max 1 k : Nat) : ℚ) := div_pos hT hden
  have hq : 0 ≤ cfg.target_batch_time / (elapsed / ((max 1 k : Nat) : ℚ)) :=
    div_nonneg htgt htpi.le
  have hmain : nextBatchSize cfg elapsed k =
      some (min ((cfg.max_batch_size : ℤ))
        (⌊cfg.target_batch_time / (elapsed / ((max 1 k : Nat) : ℚ))⌋ + 1)) := by
    unfold nextBatchSize pyInt
    rw [if_neg (ne_of_gt htpi), if_pos hq, min_comm]
  refine ⟨hmain, ?_⟩
  intro v hv
  rw [hmain] at hv
  have hv2 := Option.some.inj hv
  have h1 : (1 : ℤ) ≤ ⌊cfg.target_batch_time / (elapsed / ((max 1 k : Nat) : ℚ))⌋ + 1 := by
    have := Int.floor_nonneg.mpr hq
    omega
  have h2 : (1 : ℤ) ≤ (cfg.max_batch_size : ℤ) := by exact_mod_cast hmax
  omega

/-- C1 witness: with maxBatchSize 2 and targetBatchTime 3, a batch
resolving 1 item in 1 second yields next size min(2, 3 + 1) = 2. -/
theorem next_batch_size_formula_witness :
    nextBatchSize ⟨2, 1, 3, 12⟩ 1 1 = some 2 := by
  have h := (next_batch_size_formula ⟨2, 1, 3, 12⟩ 1 1 one_pos (by norm_num)
    (by norm_num)).1
  rw [h]
  norm_num

/-- C9: handle_msg on a message whose name is not block leaves the whole
state (dictionary, queues, futures) unchanged and raises no error. -/
theorem handle_msg_other_name_noop (s : FState) (name : String) (b : Block)
    (h : name ≠ "block") : handle_msg s name b = s := by
  simp [handle_msg, h]

/-- C9 witness: a ping message leaves the fresh state unchanged. -/
theorem handle_msg_other_name_noop_witness :
    handle_msg emptyState ("ping") ⟨0, 0⟩ = emptyState :=
  handle_msg_other_name_noop emptyState ("ping") ⟨0, 0⟩ (by decide)

/-- C10: the batch-size computation is only defined for a strictly positive
elapsed time: at elapsed = 0 the computed time_per_item is 0 and the
division target_batch_time / time_per_item raises ZeroDivisionError
(modelled as none, ending the peer's loop), while any positive elapsed
time produces a batch size. -/
theorem next_batch_size_zero_elapsed (cfg : Config) (k : Nat) (elapsed : ℚ)
    (h : 0 < elapsed) :
    (0 : ℚ) / ((max 1 k : Nat) : ℚ) = 0 ∧
    nextBatchSize cfg 0 k = none ∧
    (nextBatchSize cfg elapsed k).isSome = true := by
  have hden : (0 : ℚ) < ((max 1 k : Nat) : ℚ) := by
    have h1 : (1 : Nat) ≤ max 1 k := le_max_left 1 k
    exact_mod_cast Nat.lt_of_lt_of_le Nat.zero_lt_one h1
  have htpi : 0 < elapsed / ((max 1 k : Nat) : ℚ) := div_pos h hden
  refine ⟨zero_div _, ?_, ?_⟩
  · unfold nextBatchSize
    rw [if_pos (zero_div _)]
  · unfold nextBatchSize
    rw [if_neg (ne_of_gt htpi)]
    rfl

/-- C10 witness: at elapsed 0 the computation signals the error; at
elapsed 1 it produces a size. -/
theorem next_batch_size_zero_elapsed_witness :
    nextBatchSize ⟨2, 1, 3, 12⟩ 0 1 = none ∧
    (nextBatchSize ⟨2, 1, 3, 12⟩ 1 1).isSome = true := by
  have h := next_batch_size_zero_elapsed ⟨2, 1, 3, 12⟩ 1 1 one_pos
  exact ⟨h.2.1, h.2.2⟩

/-! ### C3: the deadline stamped on fresh retry entries -/

/-- A state holding one not-yet-expired retry entry with deadline 5 and
one fresh pending request. -/
def sClobber : FState :=
  ⟨[⟨1, 20, 1⟩], [(5, ⟨0, 10, 0⟩)], [(10, 0), (20, 1)],
    [⟨none, []⟩, ⟨none, []⟩]⟩

/-- C3: evaluating _get_batch at time now = 0 with maxBatchTimeout = 12 on
sClobber: the request accepted into the batch is stored in the retry queue
with deadline 5 — the deadline of the unexpired swept entry, because the
sweep loop reassigns the local variable retry_time — and not
now + maxBatchTimeout = 12. -/
theorem retry_deadline_not_now_plus_timeout :
    batchFuts (get_batch ⟨200, 1, 3, 12⟩ sClobber 1 7 0) = [1] ∧
    (afterBatch sClobber (get_batch ⟨200, 1, 3, 12⟩ sClobber 1 7 0)).retryQ =
      [(5, ⟨0, 10, 0⟩), (5, ⟨1, 20, 1⟩)] ∧
    (5 : ℚ) ≠ 0 + 12 := by
  refine ⟨?_, ?_, by norm_num⟩ <;>
    norm_num [sClobber, get_batch, sweep, buildLoop, requeue, resultOf,
      triedOf, rinsert, rleB, qinsert, qleB, batchFuts, afterBatch]

theorem getElem?_eq_some_getD {α : Type} (l : List α) (i : Nat) (d : α)
    (h : i < l.length) : l[i]? = some (l.getD i d) := by
  induction l generalizing i with
  | nil => simp at h
  | cons x xs ih =>
    cases i with
    | zero => simp [List.getD]
    | succ j => simpa [List.getD] using ih j (by simpa using h)

/-! ### C2: delivery of a block payload -/

/-- C2: delivering a block payload whose hash is registered with a
not-yet-resolved future resolves exactly that future, sets it exactly
once, and deletes the dictionary entry; every other future, both queues
and every other dictionary entry are untouched, and a repeated delivery
of the same hash is a no-op.  Moreover (last conjunct) delivery to any
state whose lookup finds no live unresolved entry leaves the whole state
unchanged. -/
theorem handle_msg_block_delivery (s : FState) (b : Block) (fid : Nat)
    (hwf : ∀ e ∈ s.table, e.2 < s.reqs.length)
    (hlk : lookupTab s.table b.hash = some fid)
    (hunres : resultOf s.reqs fid = none) :
    resultOf (handle_msg s ("block") b).reqs fid = some b ∧
    lookupTab (handle_msg s ("block") b).table b.hash = none ∧
    (∀ g, g ≠ fid →
      resultOf (handle_msg s ("block") b).reqs g = resultOf s.reqs g) ∧
    (∀ g, triedOf (handle_msg s ("block") b).reqs g = triedOf s.reqs g) ∧
    (∀ h2, h2 ≠ b.hash →
      lookupTab (handle_msg s ("block") b).table h2 = lookupTab s.table h2) ∧
    (handle_msg s ("block") b).queue = s.queue ∧
    (handle_msg s ("block") b).retryQ = s.retryQ ∧
    handle_msg (handle_msg s ("block") b) ("block") b =
      handle_msg s ("block") b ∧
    (∀ s2 : FState, ∀ b2 : Block,
      (∀ g, lookupTab s2.table b2.hash = some g →
        (resultOf s2.reqs g).isSome = true) →
      handle_msg s2 ("block") b2 = s2) := by
  have hnoop : ∀ s2 : FState, ∀ b2 : Block,
      (∀ g, lookupTab s2.table b2.hash = some g →
        (resultOf s2.reqs g).isSome = true) →
      handle_msg s2 ("block") b2 = s2 := by
    intro s2 b2 hcond
    unfold handle_msg
    rw [if_pos rfl]
    cases hlk2 : lookupTab s2.table b2.hash with
    | none => rfl
    | some g =>
      cases hg2 : s2.reqs.get? g with
      | none => simp only [hg2]
      | some r =>
        have hglen : g < s2.reqs.length := by
          by_contra hge
          rw [List.get?_eq_none.mpr (Nat.le_of_not_lt hge)] at hg2
          exact Option.noConfusion hg2
        have hr : r.result = resultOf s2.reqs g := by
          unfold resultOf
          rw [List.get?_eq_getElem?] at hg2
          rw [getElem?_eq_some_getD s2.reqs g ⟨none, []⟩ hglen] at hg2
          rw [Option.some.inj hg2]
        have hsome : r.result.isSome = true := hr ▸ hcond g hlk2
        simp only [hg2, hsome, if_true]
  have hfidlen : fid < s.reqs.length := hwf _ (lookupTab_mem _ _ _ hlk)
  have hget : s.reqs[fid]? = some (s.reqs.getD fid ⟨none, []⟩) :=
    getElem?_eq_some_getD s.reqs fid ⟨none, []⟩ hfidlen
  simp only [resultOf] at hunres
  have hget2 : s.reqs.get? fid = some (s.reqs.getD fid ⟨none, []⟩) := by
    rw [List.get?_eq_getElem?]
    exact hget
  have hmsg : handle_msg s ("block") b =
      { s with
        reqs := s.reqs.set fid
          { s.reqs.getD fid ⟨none, []⟩ with result := some b }
        table := tabErase s.table b.hash } := by
    unfold handle_msg
    rw [if_pos rfl]
    simp only [hlk, hget2, hunres, Option.isSome_none, Bool.false_eq_true,
      if_false]
  rw [hmsg]
  refine ⟨?_, ?_, ?_, ?_, ?_, rfl, rfl, ?_, hnoop⟩
  · show resultOf (s.reqs.set fid _) fid = some b
    unfold resultOf
    rw [getD_set_self _ _ _ _ hfidlen]
  · exact lookupTab_erase_self s.table b.hash
  · intro g hg
    show resultOf (s.reqs.set fid _) g = resultOf s.reqs g
    unfold resultOf
    rw [getD_set_ne _ _ _ _ _ hg]
  · intro g
    show triedOf (s.reqs.set fid _) g = triedOf s.reqs g
    by_cases hg : g = fid
    · subst hg
      unfold triedOf
      rw [getD_set_self _ _ _ _ hfidlen]
    · unfold triedOf
      rw [getD_set_ne _ _ _ _ _ hg]
  · intro h2 hh2
    exact lookupTab_erase_other s.table b.hash h2 hh2
  · apply hnoop
    intro g hg
    simp only [lookupTab_erase_self] at hg
    exact Option.noConfusion hg

/-- The state used by the C2 witness: one pending request for hash 101. -/
def sDeliver : FState := ⟨[], [], [(101, 0)], [⟨none, []⟩]⟩

/-- C2 witness: delivering a block with hash 101 resolves future 0,
removes the dictionary entry, a second delivery of the same hash is a
no-op, and a delivery for the unrequested hash 999 changes nothing. -/
theorem handle_msg_block_delivery_witness :
    resultOf (handle_msg sDeliver ("block") ⟨101, 5⟩).reqs 0 = some ⟨101, 5⟩ ∧
    lookupTab (handle_msg sDeliver ("block") ⟨101, 5⟩).table 101 = none ∧
    handle_msg (handle_msg sDeliver ("block") ⟨101, 5⟩) ("block") ⟨101, 5⟩ =
      handle_msg sDeliver ("block") ⟨101, 5⟩ ∧
    handle_msg sDeliver ("block") ⟨999, 0⟩ = sDeliver := by
  have h := handle_msg_block_delivery sDeliver ⟨101, 5⟩ 0 (by decide) (by decide)
    (by decide)
  refine ⟨h.1, h.2.1, h.2.2.2.2.2.2.2.1, ?_⟩
  refine h.2.2.2.2.2.2.2.2 sDeliver ⟨999, 0⟩ ?_
  intro g hg
  simp [sDeliver, lookupTab] at hg

/-! ### C4 and C5: first batches from a fresh state -/

/-- The state after submitting two requests to a fresh Blockfetcher. -/
def sTwo : FState := (fetch_blocks emptyState [(10, 0), (20, 1)]).1

/-- C4 counterexample: with the default initialBatchSize 1, maxBatchSize
200 and N = 2 ≤ 200 pending requests, the first batch built for the
single peer 7 contains only request 0, not all N requests. -/
theorem first_batch_counterexample :
    (fetch_blocks emptyState [(10, 0), (20, 1)]).2 = [0, 1] ∧
    batchFuts (get_batch ⟨200, 1, 3, 12⟩ sTwo 1 7 0) = [0] ∧
    ¬ (1 ∈ batchFuts (get_batch ⟨200, 1, 3, 12⟩ sTwo 1 7 0)) := by
  refine ⟨rfl, ?_, ?_⟩ <;>
    norm_num [sTwo, fetch_blocks, emptyState, qinsert, qleB, tabInsert,
      tabErase, get_batch, sweep, buildLoop, requeue, resultOf, triedOf,
      rinsert, rleB, batchFuts]

/-- The configuration of the spec's scenario: maxBatchSize 2,
initialBatchSize 1, targetBatchTime 3, maxBatchTimeout 12. -/
def cfgScn : Config := ⟨2, 1, 3, 12⟩

/-- Scenario state after submitting h1 = 101 (priority 0), h2 = 102
(priority 1), h3 = 103 (priority 2). -/
def scnS1 : FState := (fetch_blocks emptyState [(101, 0), (102, 1), (103, 2)]).1

/-- Scenario state after peer 7's first _get_batch (size 1, time 0). -/
def scnS2 : FState := afterBatch scnS1 (get_batch cfgScn scnS1 1 7 0)

/-- Scenario state after the pipelined second _get_batch (still size 1,
issued before any block arrives). -/
def scnS3 : FState := afterBatch scnS2 (get_batch cfgScn scnS2 1 7 0)

/-- Scenario state after h1 arrives (1 second in). -/
def scnS4 : FState := handle_msg scnS3 ("block") ⟨101, 0⟩

/-- C5 counterexample: in the scenario, the batch sent to peer 7 after
the first one is {h2} alone — the fetcher loop requests it with the old
size 1 before waiting on the first batch — and the batch built after the
size update to 2 is {h3} alone; neither is {h2, h3}. -/
theorem scenario_next_batch_counterexample :
    batchInvs (get_batch cfgScn scnS2 1 7 0) = [102] ∧
    ¬ (103 ∈ batchInvs (get_batch cfgScn scnS2 1 7 0)) ∧
    batchInvs (get_batch cfgScn scnS4 2 7 1) = [103] ∧
    ¬ (102 ∈ batchInvs (get_batch cfgScn scnS4 2 7 1)) := by
  refine ⟨?_, ?_, ?_, ?_⟩ <;>
    norm_num [scnS4, scnS3, scnS2, scnS1, cfgScn, fetch_blocks, emptyState,
      qinsert, qleB, tabInsert, tabErase, get_batch, sweep, buildLoop,
      requeue, resultOf, triedOf, rinsert, rleB, batchInvs, afterBatch,
      handle_msg, lookupTab]

/-- C5 (amended): the full pipelined scenario.  fetch_blocks returns
futures 0, 1, 2; the first batch to peer 7 is {h1}; the pipelined second
batch — requested with the old size 1 before h1 resolves — is {h2}; once
h1 resolves after 1 second the computed next size is min(2, 3 + 1) = 2;
the batch then built with size 2 finds only h3 left and is {h3}. -/
theorem scenario_pipelined_batches :
    (fetch_blocks emptyState [(101, 0), (102, 1), (103, 2)]).2 = [0, 1, 2] ∧
    batchInvs (get_batch cfgScn scnS1 1 7 0) = [101] ∧
    batchInvs (get_batch cfgScn scnS2 1 7 0) = [102] ∧
    nextBatchSize cfgScn 1 1 = some 2 ∧
    batchInvs (get_batch cfgScn scnS4 2 7 1) = [103] := by
  refine ⟨rfl, ?_, ?_, ?_, ?_⟩ <;>
    norm_num [scnS4, scnS3, scnS2, scnS1, cfgScn, fetch_blocks, emptyState,
      qinsert, qleB, tabInsert, tabErase, get_batch, sweep, buildLoop,
      requeue, resultOf, triedOf, rinsert, rleB, batchInvs, afterBatch,
      handle_msg, lookupTab, nextBatchSize, pyInt]

/-! ### Permutation lemmas for the sorted-queue model -/

theorem qinsert_perm (it : QItem) (q : List QItem) :
    (qinsert it q).Perm (it :: q) := by
  induction q with
  | nil => exact List.Perm.refl _
  | cons x xs ih =>
    unfold qinsert
    by_cases h : qleB it x
    · rw [if_pos h]
    · rw [if_neg h]
      exact (ih.cons x).trans (List.Perm.swap it x xs)

theorem mem_qinsert (x it : QItem) (q : List QItem) :
    x ∈ qinsert it q ↔ x = it ∨ x ∈ q := by
  rw [(qinsert_perm it q).mem_iff, List.mem_cons]

theorem requeue_perm (sk q : List QItem) : (requeue sk q).Perm (sk ++ q) := by
  induction sk generalizing q with
  | nil => exact List.Perm.refl _
  | cons s rest ih =>
    show (requeue rest (qinsert s q)).Perm ((s :: rest) ++ q)
    have h2 : (rest ++ qinsert s q).Perm (rest ++ (s :: q)) :=
      List.Perm.append_left rest (qinsert_perm s q)
    exact ((ih (qinsert s q)).trans (h2.trans List.perm_middle))

theorem mem_requeue (x : QItem) (sk q : List QItem) :
    x ∈ requeue sk q ↔ x ∈ sk ∨ x ∈ q := by
  rw [(requeue_perm sk q).mem_iff, List.mem_append]

/-! ### Shape of the state produced by fetch_blocks -/

/-- The queue tuples created by fetch_blocks when the next free slot
index is n. -/
def mkItems : Nat → List (Nat × Int) → List QItem
  | _, [] => []
  | n, (bh, pri) :: rest => ⟨pri, bh, n⟩ :: mkItems (n + 1) rest

theorem mkItems_length (n : Nat) (pairs : List (Nat × Int)) :
    (mkItems n pairs).length = pairs.length := by
  induction pairs generalizing n with
  | nil => rfl
  | cons p rest ih =>
    obtain ⟨bh, pri⟩ := p
    simp [mkItems, ih]

theorem mkItems_map_fid (n : Nat) (pairs : List (Nat × Int)) :
    (mkItems n pairs).map QItem.fid = List.range' n pairs.length := by
  induction pairs generalizing n with
  | nil => rfl
  | cons p rest ih =>
    obtain ⟨bh, pri⟩ := p
    simp [mkItems, ih, List.range'_succ]

theorem fetch_blocks_reqs (s : FState) (pairs : List (Nat × Int)) :
    (fetch_blocks s pairs).1.reqs =
      s.reqs ++ List.replicate pairs.length ⟨none, []⟩ := by
  induction pairs generalizing s with
  | nil => simp [fetch_blocks]
  | cons p rest ih =>
    obtain ⟨bh, pri⟩ := p
    simp only [fetch_blocks]
    rw [ih]
    simp [List.replicate_succ, List.append_assoc]

theorem fetch_blocks_retryQ (s : FState) (pairs : List (Nat × Int)) :
    (fetch_blocks s pairs).1.retryQ = s.retryQ := by
  induction pairs generalizing s with
  | nil => rfl
  | cons p rest ih =>
    obtain ⟨bh, pri⟩ := p
    simp only [fetch_blocks]
    rw [ih]

theorem fetch_blocks_snd (s : FState) (pairs : List (Nat × Int)) :
    (fetch_blocks s pairs).2 = List.range' s.reqs.length pairs.length := by
  induction pairs generalizing s with
  | nil => rfl
  | cons p rest ih =>
    obtain ⟨bh, pri⟩ := p
    simp only [fetch_blocks]
    rw [ih]
    simp [List.range'_succ, List.length_append]

theorem fetch_blocks_queue_perm (s : FState) (pairs : List (Nat × Int)) :
    (fetch_blocks s pairs).1.queue.Perm
      (mkItems s.reqs.length pairs ++ s.queue) := by
  induction pairs generalizing s with
  | nil => exact List.Perm.refl _
  | cons p rest ih =>
    obtain ⟨bh, pri⟩ := p
    simp only [fetch_blocks, mkItems]
    have h1 := ih (⟨qinsert ⟨pri, bh, s.reqs.length⟩ s.queue, s.retryQ,
      tabInsert s.table bh s.reqs.length, s.reqs ++ [⟨none, []⟩]⟩ : FState)
    simp only [List.length_append, List.length_singleton] at h1
    have h2 : (mkItems (s.reqs.length + 1) rest ++
        qinsert ⟨pri, bh, s.reqs.length⟩ s.queue).Perm
        (mkItems (s.reqs.length + 1) rest ++
          (⟨pri, bh, s.reqs.length⟩ :: s.queue)) :=
      List.Perm.append_left _ (qinsert_perm _ _)
    exact h1.trans (h2.trans List.perm_middle)

theorem getD_replicate (n i : Nat) (d d2 : ReqState) (h : i < n) :
    (List.replicate n d).getD i d2 = d := by
  induction n generalizing i with
  | zero => omega
  | succ m ih =>
    cases i with
    | zero => rfl
    | succ j => simpa [List.replicate_succ] using ih j (by omega)

theorem resultOf_set_ne (reqs : List ReqState) (i j : Nat) (r : ReqState)
    (h : j ≠ i) : resultOf (reqs.set i r) j = resultOf reqs j := by
  unfold resultOf
  rw [getD_set_ne _ _ _ _ _ h]

theorem triedOf_set_ne (reqs : List ReqState) (i j : Nat) (r : ReqState)
    (h : j ≠ i) : triedOf (reqs.set i r) j = triedOf reqs j := by
  unfold triedOf
  rw [getD_set_ne _ _ _ _ _ h]

theorem resultOf_set_self (reqs : List ReqState) (i : Nat) (r : ReqState)
    (h : i < reqs.length) : resultOf (reqs.set i r) i = r.result := by
  unfold resultOf
  rw [getD_set_self _ _ _ _ h]

theorem triedOf_set_self (reqs : List ReqState) (i : Nat) (r : ReqState)
    (h : i < reqs.length) : triedOf (reqs.set i r) i = r.tried := by
  unfold triedOf
  rw [getD_set_self _ _ _ _ h]

/-- When every queued tuple is fresh (unresolved, peer untried), the
build loop accepts the whole queue, in order, as long as it fits in the
requested batch size. -/
theorem buildLoop_all_fresh (peer bsize : Nat) (rt : ℚ) :
    ∀ (q : List QItem) (reqs : List ReqState) (retryQ : List (ℚ × QItem))
      (skipped : List QItem) (invs futs : List Nat),
      (∀ it ∈ q, resultOf reqs it.fid = none ∧ peer ∉ triedOf reqs it.fid) →
      (q.map QItem.fid).Nodup →
      futs.length + q.length ≤ bsize →
      1 ≤ futs.length + q.length →
      ∃ reqs2 retryQ2,
        buildLoop peer bsize rt q reqs retryQ skipped invs futs =
          some (requeue skipped [], reqs2, retryQ2,
            invs ++ q.map QItem.bh, futs ++ q.map QItem.fid) := by
  intro q
  induction q with
  | nil =>
    intro reqs retryQ skipped invs futs hfresh hnodup hlen hpos
    refine ⟨reqs, retryQ, ?_⟩
    have hne : futs.isEmpty = false := by
      cases futs
      · simp at hpos
      · rfl
    unfold buildLoop
    by_cases hb : bsize ≤ futs.length
    · simp [hb]
    · simp [hb, hne]
  | cons it rest ih =>
    intro reqs retryQ skipped invs futs hfresh hnodup hlen hpos
    have hitf : resultOf reqs it.fid = none := (hfresh it (List.mem_cons_self _ _)).1
    have hitt : peer ∉ triedOf reqs it.fid := (hfresh it (List.mem_cons_self _ _)).2
    have hblt : ¬ bsize ≤ futs.length := by
      simp only [List.length_cons] at hlen
      omega
    have hstep : buildLoop peer bsize rt (it :: rest) reqs retryQ skipped invs futs =
        buildLoop peer bsize rt rest
          (reqs.set it.fid ⟨none, triedOf reqs it.fid ++ [peer]⟩)
          (rinsert (rt, it) retryQ) skipped (invs ++ [it.bh]) (futs ++ [it.fid]) := by
      conv_lhs => unfold buildLoop
      rw [if_neg hblt]
      simp only [hitf, Option.isSome_none, Bool.false_eq_true, if_false]
      rw [if_neg hitt]
    rw [hstep]
    have hnodup2 : (rest.map QItem.fid).Nodup := by
      simp only [List.map_cons, List.nodup_cons] at hnodup
      exact hnodup.2
    have hhead : it.fid ∉ rest.map QItem.fid := by
      simp only [List.map_cons, List.nodup_cons] at hnodup
      exact hnodup.1
    have hfresh2 : ∀ it2 ∈ rest,
        resultOf (reqs.set it.fid ⟨none, triedOf reqs it.fid ++ [peer]⟩) it2.fid = none ∧
        peer ∉ triedOf (reqs.set it.fid ⟨none, triedOf reqs it.fid ++ [peer]⟩) it2.fid := by
      intro it2 hm
      have hne2 : it2.fid ≠ it.fid := by
        intro he
        exact hhead (he ▸ List.mem_map_of_mem QItem.fid hm)
      have h2 := hfresh it2 (List.mem_cons_of_mem _ hm)
      rw [resultOf_set_ne _ _ _ _ hne2, triedOf_set_ne _ _ _ _ hne2]
      exact h2
    obtain ⟨reqs2, retryQ2, hb2⟩ := ih
      (reqs.set it.fid ⟨none, triedOf reqs it.fid ++ [peer]⟩)
      (rinsert (rt, it) retryQ) skipped (invs ++ [it.bh]) (futs ++ [it.fid])
      hfresh2 hnodup2
      (by simp only [List.length_append, List.length_cons, List.length_nil,
        List.length_singleton] at hlen ⊢; omega)
      (by simp only [List.length_append, List.length_cons, List.length_nil,
        List.length_singleton]; omega)
    refine ⟨reqs2, retryQ2, ?_⟩
    rw [hb2]
    simp [List.append_assoc]

/-- C4 (amended): with a single peer, submitting 1 ≤ N ≤ initialBatchSize
requests to a fresh Blockfetcher and building the peer's first batch
(whose size is initialBatchSize) yields a batch holding all N requests. -/
theorem first_batch_contains_all (cfg : Config) (pairs : List (Nat × Int))
    (peer : Nat) (now : ℚ)
    (h1 : 1 ≤ pairs.length) (h2 : pairs.length ≤ cfg.initial_batch_size) :
    (batchFuts (get_batch cfg (fetch_blocks emptyState pairs).1
        cfg.initial_batch_size peer now)).length = pairs.length ∧
    ∀ fid ∈ (fetch_blocks emptyState pairs).2,
      fid ∈ batchFuts (get_batch cfg (fetch_blocks emptyState pairs).1
        cfg.initial_batch_size peer now) := by
  set s1 := (fetch_blocks emptyState pairs).1 with hs1
  have hreqs : s1.reqs = List.replicate pairs.length ⟨none, []⟩ := by
    rw [hs1, fetch_blocks_reqs]
    rfl
  have hretry : s1.retryQ = [] := by
    rw [hs1, fetch_blocks_retryQ]
    rfl
  have hqperm : s1.queue.Perm (mkItems 0 pairs) := by
    have h := fetch_blocks_queue_perm emptyState pairs
    simpa [emptyState] using h
  have hqlen : s1.queue.length = pairs.length := by
    rw [hqperm.length_eq, mkItems_length]
  have hmapperm : (s1.queue.map QItem.fid).Perm (List.range' 0 pairs.length) := by
    rw [← mkItems_map_fid 0 pairs]
    exact hqperm.map _
  have hfresh : ∀ it ∈ s1.queue,
      resultOf s1.reqs it.fid = none ∧ peer ∉ triedOf s1.reqs it.fid := by
    intro it hm
    have hfid : it.fid < pairs.length := by
      have hin : it.fid ∈ s1.queue.map QItem.fid := List.mem_map_of_mem _ hm
      have hin2 := List.mem_range'_1.mp (hmapperm.mem_iff.mp hin)
      omega
    constructor
    · rw [hreqs]
      unfold resultOf
      rw [getD_replicate _ _ _ _ hfid]
    · rw [hreqs]
      unfold triedOf
      rw [getD_replicate _ _ _ _ hfid]
      simp
  have hnodup : (s1.queue.map QItem.fid).Nodup :=
    hmapperm.nodup_iff.mpr (List.nodup_range' 0 pairs.length)
  obtain ⟨reqs2, retryQ2, hbuild⟩ := buildLoop_all_fresh peer
    cfg.initial_batch_size (now + cfg.max_batch_timeout) s1.queue s1.reqs
    [] [] [] [] hfresh hnodup (by simpa [hqlen] using h2)
    (by simpa [hqlen] using h1)
  have hfuts : batchFuts (get_batch cfg s1 cfg.initial_batch_size peer now) =
      s1.queue.map QItem.fid := by
    unfold get_batch
    rw [hretry]
    simp only [sweep]
    rw [hbuild]
    simp [batchFuts]
  refine ⟨?_, ?_⟩
  · rw [hfuts, List.length_map, hqlen]
  · intro fid hm
    rw [hfuts]
    rw [fetch_blocks_snd] at hm
    refine hmapperm.mem_iff.mpr ?_
    simpa [emptyState] using hm

/-- C4 witness: two fresh requests, initialBatchSize 2, the first batch
holds both. -/
theorem first_batch_contains_all_witness :
    (batchFuts (get_batch ⟨200, 2, 3, 12⟩ (fetch_blocks emptyState
        [(10, 0), (20, 1)]).1 2 7 0)).length = 2 ∧
    0 ∈ batchFuts (get_batch ⟨200, 2, 3, 12⟩ (fetch_blocks emptyState
        [(10, 0), (20, 1)]).1 2 7 0) ∧
    1 ∈ batchFuts (get_batch ⟨200, 2, 3, 12⟩ (fetch_blocks emptyState
        [(10, 0), (20, 1)]).1 2 7 0) := by
  have h := first_batch_contains_all ⟨200, 2, 3, 12⟩ [(10, 0), (20, 1)] 7 0
    (by norm_num) (by norm_num)
  refine ⟨h.1, h.2 0 ?_, h.2 1 ?_⟩ <;> decide

/-! ### C8: the retry sweep -/

/-- C8: on a deadline-sorted retry queue the sweep removes exactly the
entries whose deadline is ≤ now (popping in ascending deadline order),
stops at the first entry with a future deadline — leaving it and all
later entries in place — and pushes back into the request queue exactly
the removed entries whose request is still unresolved. -/
theorem retry_sweep_spec (now rt0 : ℚ) (reqs : List ReqState)
    (rq : List (ℚ × QItem)) (q : List QItem)
    (hs : rq.Pairwise (fun a b => a.1 ≤ b.1)) :
    (sweep now reqs rt0 rq q).2.1 =
      rq.filter (fun e => decide (now < e.1)) ∧
    (sweep now reqs rt0 rq q).2.2.Perm
      ((rq.filter (fun e => decide (e.1 ≤ now) &&
        (resultOf reqs e.2.fid).isNone)).map Prod.snd ++ q) := by
  induction rq generalizing rt0 q with
  | nil => simp [sweep]
  | cons e rest ih =>
    obtain ⟨t, it⟩ := e
    rw [List.pairwise_cons] at hs
    by_cases hnow : now < t
    · have hsw : sweep now reqs rt0 ((t, it) :: rest) q = (t, (t, it) :: rest, q) := by
        unfold sweep
        rw [if_pos hnow]
      rw [hsw]
      constructor
      · simp only [List.filter_cons]
        rw [if_pos (by simpa using hnow)]
        have hall : rest.filter (fun e => decide (now < e.1)) = rest :=
          List.filter_eq_self.mpr fun e he => by
            simpa using lt_of_lt_of_le hnow (hs.1 e he)
        rw [hall]
      · have hfe : ((t, it) :: rest).filter (fun e => decide (e.1 ≤ now) &&
            (resultOf reqs e.2.fid).isNone) = [] := by
          rw [List.filter_eq_nil_iff]
          intro e he
          rcases List.mem_cons.mp he with he1 | he2
          · subst he1
            simp [not_le.mpr hnow]
          · have : now < e.1 := lt_of_lt_of_le hnow (hs.1 e he2)
            simp [not_le.mpr this]
        rw [hfe]
        exact List.Perm.refl _
    · have ht : t ≤ now := le_of_not_lt hnow
      have hsw : sweep now reqs rt0 ((t, it) :: rest) q =
          sweep now reqs t rest
            (if (resultOf reqs it.fid).isSome then q else qinsert it q) := by
        conv_lhs => unfold sweep
        rw [if_neg hnow]
      rw [hsw]
      obtain ⟨ih1, ih2⟩ := ih t
        (if (resultOf reqs it.fid).isSome then q else qinsert it q) hs.2
      constructor
      · rw [ih1]
        simp only [List.filter_cons]
        rw [if_neg (by simpa using hnow)]
      · rw [List.filter_cons]
        dsimp only
        by_cases hres : (resultOf reqs it.fid).isSome
        · have hcond : (decide (t ≤ now) &&
              (resultOf reqs it.fid).isNone) = false := by
            rcases hr : resultOf reqs it.fid with _ | v
            · rw [hr] at hres
              simp at hres
            · simp [hr]
          rw [hcond]
          simp only [Bool.false_eq_true, if_false]
          rw [if_pos hres] at ih2 ⊢
          exact ih2
        · have hcond : (decide (t ≤ now) &&
              (resultOf reqs it.fid).isNone) = true := by
            rcases hr : resultOf reqs it.fid with _ | v
            · simp [hr, ht]
            · rw [hr] at hres
              simp at hres
          rw [hcond, if_pos rfl]
          rw [if_neg hres] at ih2 ⊢
          dsimp only [List.map_cons]
          have h3 : ((rest.filter (fun e => decide (e.1 ≤ now) &&
              (resultOf reqs e.2.fid).isNone)).map Prod.snd ++
                qinsert it q).Perm
              ((rest.filter (fun e => decide (e.1 ≤ now) &&
                (resultOf reqs e.2.fid).isNone)).map Prod.snd ++ (it :: q)) :=
            List.Perm.append_left _ (qinsert_perm it q)
          exact ih2.trans (h3.trans List.perm_middle)

/-- The request slots used by the C8 witness: slot 0 resolved, slots 1
and 2 pending. -/
def reqsSweep : List ReqState := [⟨some ⟨10, 0⟩, []⟩, ⟨none, []⟩, ⟨none, []⟩]

/-- The deadline-sorted retry queue used by the C8 witness: two expired
entries (deadlines 3 and 4), one live entry (deadline 11). -/
def rqSweep : List (ℚ × QItem) :=
  [(3, ⟨0, 10, 0⟩), (4, ⟨1, 11, 1⟩), (11, ⟨2, 12, 2⟩)]

/-- C8 witness: at now = 10 the sweep pops the two expired entries,
keeps the unexpired one, and re-enqueues only the unresolved request 1
(request 0 is already resolved). -/
theorem retry_sweep_spec_witness :
    (sweep 10 reqsSweep 22 rqSweep []).2.1 = [(11, ⟨2, 12, 2⟩)] ∧
    (sweep 10 reqsSweep 22 rqSweep []).2.2.Perm [⟨1, 11, 1⟩] := by
  have h := retry_sweep_spec 10 22 reqsSweep rqSweep [] (by decide)
  constructor
  · rw [h.1]
    decide
  · have h2 := h.2
    have he : ((rqSweep.filter (fun e => decide (e.1 ≤ 10) &&
        (resultOf reqsSweep e.2.fid).isNone)).map Prod.snd ++
          ([] : List QItem)) = [⟨1, 11, 1⟩] := by decide
    rw [he] at h2
    exact h2

/-! ### C7: peers_tried is monotone and excludes re-batching -/

theorem getD_append_lt (l l2 : List ReqState) (i : Nat) (d : ReqState)
    (h : i < l.length) : (l ++ l2).getD i d = l.getD i d := by
  induction l generalizing i with
  | nil => simp at h
  | cons x xs ih =>
    cases i with
    | zero => rfl
    | succ j => simpa using ih j (by simpa using h)

theorem getD_len_le (l : List ReqState) (i : Nat) (d : ReqState)
    (h : l.length ≤ i) : l.getD i d = d := by
  induction l generalizing i with
  | nil => cases i <;> rfl
  | cons x xs ih =>
    cases i with
    | zero => simp at h
    | succ j => simpa using ih j (by simpa using h)

theorem getD_append_ge (l l2 : List ReqState) (i : Nat) (d : ReqState)
    (h : l.length <= i) : (l ++ l2).getD i d = l2.getD (i - l.length) d := by
  induction l generalizing i with
  | nil => simp
  | cons x xs ih =>
    cases i with
    | zero => simp at h
    | succ j =>
      simp only [List.cons_append, List.length_cons]
      have h2 := ih j (by simpa using h)
      simpa [Nat.succ_sub_succ] using h2

/-- fetch_blocks never changes the peers_tried set of any slot (existing
slots keep theirs; new slots start empty, like the out-of-range
default). -/
theorem triedOf_fetch_blocks (s : FState) (pairs : List (Nat × Int))
    (g : Nat) : triedOf (fetch_blocks s pairs).1.reqs g = triedOf s.reqs g := by
  rw [fetch_blocks_reqs]
  by_cases h : g < s.reqs.length
  · unfold triedOf
    rw [getD_append_lt _ _ _ _ h]
  · unfold triedOf
    rw [getD_len_le s.reqs _ _ (le_of_not_lt h),
      getD_append_ge _ _ _ _ (le_of_not_lt h)]
    by_cases h2 : g - s.reqs.length < pairs.length
    · rw [getD_replicate _ _ _ _ h2]
    · rw [getD_len_le _ _ _ (by simpa using le_of_not_lt h2)]

/-- handle_msg never changes any peers_tried set. -/
theorem triedOf_handle_msg (s : FState) (name : String) (b : Block) (g : Nat) :
    triedOf (handle_msg s name b).reqs g = triedOf s.reqs g := by
  unfold handle_msg
  split
  · split
    · rfl
    · next fid heq =>
      split
      · rfl
      · next r hget =>
        split
        · rfl
        · show triedOf (s.reqs.set fid _) g = triedOf s.reqs g
          have hlen : fid < s.reqs.length := by
            by_contra hge
            rw [List.get?_eq_none.mpr (le_of_not_lt hge)] at hget
            exact Option.noConfusion hget
          by_cases hg : g = fid
          · subst hg
            rw [triedOf_set_self _ _ _ hlen]
            have hgd : s.reqs.getD g ⟨none, []⟩ = r := by
              rw [List.get?_eq_getElem?] at hget
              rw [getElem?_eq_some_getD s.reqs g ⟨none, []⟩ hlen] at hget
              exact Option.some.inj hget
            unfold triedOf
            rw [hgd]
          · rw [triedOf_set_ne _ _ _ _ hg]
  · rfl

/-- Anything in the queue passed to the sweep is still in the queue the
sweep returns. -/
theorem sweep_queue_mem (now : ℚ) (reqs : List ReqState) :
    ∀ (rt : ℚ) (rq : List (ℚ × QItem)) (q : List QItem) (it : QItem),
      it ∈ q → it ∈ (sweep now reqs rt rq q).2.2 := by
  intro rt rq
  induction rq generalizing rt with
  | nil =>
    intro q it hm
    simpa [sweep] using hm
  | cons e rest ih =>
    intro q it hm
    obtain ⟨t, e2⟩ := e
    unfold sweep
    by_cases hnow : now < t
    · rw [if_pos hnow]
      exact hm
    · rw [if_neg hnow]
      apply ih
      by_cases hres : (resultOf reqs e2.fid).isSome
      · simpa [hres] using hm
      · simp only [hres, if_false]
        exact (mem_qinsert _ _ _).mpr (Or.inr hm)

/-- Invariants of the batch build loop: the loop never changes any result
slot; peers_tried sets only grow; a request whose peers_tried already
holds the requesting peer is never added to the batch; and an unresolved
tuple of the queue (or of the skipped pile) whose request the peer has
already tried survives into the returned queue. -/
theorem buildLoop_invariants (peer bsize : Nat) (rt : ℚ) :
    ∀ (q : List QItem) (reqs : List ReqState) (retryQ : List (ℚ × QItem))
      (skipped : List QItem) (invs futs : List Nat)
      (q2 : List QItem) (reqs2 : List ReqState)
      (retryQ2 : List (ℚ × QItem)) (invs2 futs2 : List Nat),
      buildLoop peer bsize rt q reqs retryQ skipped invs futs =
        some (q2, reqs2, retryQ2, invs2, futs2) →
      (∀ g, resultOf reqs2 g = resultOf reqs g) ∧
      (∀ g p, p ∈ triedOf reqs g → p ∈ triedOf reqs2 g) ∧
      (∀ fid, peer ∈ triedOf reqs fid → fid ∉ futs → fid ∉ futs2) ∧
      (∀ it : QItem, (it ∈ q ∨ it ∈ skipped) →
        resultOf reqs it.fid = none → peer ∈ triedOf reqs it.fid →
        it ∈ q2) := by
  intro q
  induction q with
  | nil =>
    intro reqs retryQ skipped invs futs q2 reqs2 retryQ2 invs2 futs2 hb
    unfold buildLoop at hb
    have hout : q2 = requeue skipped [] ∧ reqs2 = reqs ∧ futs2 = futs := by
      by_cases hb1 : bsize ≤ futs.length
      · rw [if_pos hb1] at hb
        simp only [Option.some.injEq, Prod.mk.injEq] at hb
        exact ⟨hb.1.symm, hb.2.1.symm, hb.2.2.2.2.symm⟩
      · rw [if_neg hb1] at hb
        by_cases hb2 : futs.isEmpty
        · rw [if_pos hb2] at hb
          exact Option.noConfusion hb
        · rw [if_neg hb2] at hb
          simp only [Option.some.injEq, Prod.mk.injEq] at hb
          exact ⟨hb.1.symm, hb.2.1.symm, hb.2.2.2.2.symm⟩
    obtain ⟨hq2, hreqs2, hfuts2⟩ := hout
    subst hq2 hreqs2 hfuts2
    refine ⟨fun g => rfl, fun g p hp => hp, fun fid _ hf => hf, ?_⟩
    intro it hm _ _
    rcases hm with hm | hm
    · simp at hm
    · exact (mem_requeue _ _ _).mpr (Or.inl hm)
  | cons it0 rest ih =>
    intro reqs retryQ skipped invs futs q2 reqs2 retryQ2 invs2 futs2 hb
    by_cases hb1 : bsize ≤ futs.length
    · -- the loop stops immediately; the whole queue is kept
      unfold buildLoop at hb
      rw [if_pos hb1] at hb
      simp only [Option.some.injEq, Prod.mk.injEq] at hb
      obtain ⟨h1, h2, h3, h4, h5⟩ := hb
      subst h1 h2 h5
      refine ⟨fun g => rfl, fun g p hp => hp, fun fid _ hf => hf, ?_⟩
      intro it hm _ _
      exact (mem_requeue _ _ _).mpr hm.symm
    · have hstep := hb
      unfold buildLoop at hstep
      rw [if_neg hb1] at hstep
      by_cases hres : (resultOf reqs it0.fid).isSome
      · -- dropped tuple
        rw [if_pos hres] at hstep
        obtain ⟨hc1, hc2, hc3, hc4⟩ := ih reqs retryQ skipped invs futs
          q2 reqs2 retryQ2 invs2 futs2 hstep
        refine ⟨hc1, hc2, hc3, ?_⟩
        intro it hm hitres hittried
        rcases hm with hm | hm
        · rcases List.mem_cons.mp hm with hm0 | hm0
          · subst hm0
            rw [hitres] at hres
            simp at hres
          · exact hc4 it (Or.inl hm0) hitres hittried
        · exact hc4 it (Or.inr hm) hitres hittried
      · rw [if_neg hres] at hstep
        by_cases htr : peer ∈ triedOf reqs it0.fid
        · -- skipped tuple
          rw [if_pos htr] at hstep
          obtain ⟨hc1, hc2, hc3, hc4⟩ := ih reqs retryQ (skipped ++ [it0])
            invs futs q2 reqs2 retryQ2 invs2 futs2 hstep
          refine ⟨hc1, hc2, hc3, ?_⟩
          intro it hm hitres hittried
          rcases hm with hm | hm
          · rcases List.mem_cons.mp hm with hm0 | hm0
            · subst hm0
              exact hc4 it (Or.inr (List.mem_append_right _
                (List.mem_singleton.mpr rfl))) hitres hittried
            · exact hc4 it (Or.inl hm0) hitres hittried
          · exact hc4 it (Or.inr (List.mem_append_left _ hm)) hitres hittried
        · -- accepted tuple
          rw [if_neg htr] at hstep
          by_cases hrange : it0.fid < reqs.length
          · obtain ⟨hc1, hc2, hc3, hc4⟩ := ih
              (reqs.set it0.fid ⟨none, triedOf reqs it0.fid ++ [peer]⟩)
              (rinsert (rt, it0) retryQ) skipped (invs ++ [it0.bh])
              (futs ++ [it0.fid]) q2 reqs2 retryQ2 invs2 futs2 hstep
            have hres1 : ∀ g, resultOf
                (reqs.set it0.fid ⟨none, triedOf reqs it0.fid ++ [peer]⟩) g =
                resultOf reqs g := by
              intro g
              by_cases hg : g = it0.fid
              · subst hg
                rw [resultOf_set_self _ _ _ hrange]
                exact (Option.not_isSome_iff_eq_none.mp hres).symm
              · rw [resultOf_set_ne _ _ _ _ hg]
            have htr1 : ∀ g p, p ∈ triedOf reqs g → p ∈ triedOf
                (reqs.set it0.fid ⟨none, triedOf reqs it0.fid ++ [peer]⟩) g := by
              intro g p hp
              by_cases hg : g = it0.fid
              · subst hg
                rw [triedOf_set_self _ _ _ hrange]
                exact List.mem_append_left _ hp
              · rw [triedOf_set_ne _ _ _ _ hg]
                exact hp
            refine ⟨?_, ?_, ?_, ?_⟩
            · intro g
              rw [hc1 g, hres1 g]
            · intro g p hp
              exact hc2 g p (htr1 g p hp)
            · intro fid hfid hnf
              have hne : fid ≠ it0.fid := by
                intro he
                exact htr (he ▸ hfid)
              refine hc3 fid (htr1 fid peer hfid) ?_
              intro hmem
              rcases List.mem_append.mp hmem with hmem | hmem
              · exact hnf hmem
              · exact hne (List.mem_singleton.mp hmem)
            · intro it hm hitres hittried
              rcases hm with hm | hm
              · rcases List.mem_cons.mp hm with hm0 | hm0
                · subst hm0
                  exact absurd hittried htr
                · refine hc4 it (Or.inl hm0) ?_ (htr1 _ _ hittried)
                  rw [hres1]
                  exact hitres
              · refine hc4 it (Or.inr hm) ?_ (htr1 _ _ hittried)
                rw [hres1]
                exact hitres
          · -- slot index out of range: the set is a no-op
            rw [List.set_eq_of_length_le (le_of_not_lt hrange)] at hstep
            obtain ⟨hc1, hc2, hc3, hc4⟩ := ih reqs
              (rinsert (rt, it0) retryQ) skipped (invs ++ [it0.bh])
              (futs ++ [it0.fid]) q2 reqs2 retryQ2 invs2 futs2 hstep
            refine ⟨hc1, hc2, ?_, ?_⟩
            · intro fid hfid hnf
              have hne : fid ≠ it0.fid := by
                intro he
                exact htr (he ▸ hfid)
              refine hc3 fid hfid ?_
              intro hmem
              rcases List.mem_append.mp hmem with hmem | hmem
              · exact hnf hmem
              · exact hne (List.mem_singleton.mp hmem)
            · intro it hm hitres hittried
              rcases hm with hm | hm
              · rcases List.mem_cons.mp hm with hm0 | hm0
                · subst hm0
                  exact absurd hittried htr
                · exact hc4 it (Or.inl hm0) hitres hittried
              · exact hc4 it (Or.inr hm) hitres hittried

/-- Invariants of one completed _get_batch call: results untouched,
peers_tried only grow, no already-tried request enters the batch, and an
unresolved already-tried queue tuple survives into the new queue. -/
theorem get_batch_invariants (cfg : Config) (s : FState) (bsize peer : Nat)
    (now : ℚ) (s2 : FState) (futs invs : List Nat)
    (h : get_batch cfg s bsize peer now = some (s2, futs, invs)) :
    (∀ g, resultOf s2.reqs g = resultOf s.reqs g) ∧
    (∀ g p, p ∈ triedOf s.reqs g → p ∈ triedOf s2.reqs g) ∧
    (∀ fid, peer ∈ triedOf s.reqs fid → fid ∉ futs) ∧
    (∀ it : QItem, it ∈ s.queue → resultOf s.reqs it.fid = none →
      peer ∈ triedOf s.reqs it.fid → it ∈ s2.queue) := by
  unfold get_batch at h
  dsimp only at h
  rcases hb : buildLoop peer bsize
      (sweep now s.reqs (now + cfg.max_batch_timeout) s.retryQ s.queue).1
      (sweep now s.reqs (now + cfg.max_batch_timeout) s.retryQ s.queue).2.2
      s.reqs
      (sweep now s.reqs (now + cfg.max_batch_timeout) s.retryQ s.queue).2.1
      [] [] [] with _ | r
  · rw [hb] at h
    exact Option.noConfusion h
  · obtain ⟨q2, reqs2, retryQ2, invs2, futs2⟩ := r
    rw [hb] at h
    simp only [Option.some.injEq, Prod.mk.injEq] at h
    obtain ⟨hs2, hfuts, hinvs⟩ := h
    obtain ⟨hc1, hc2, hc3, hc4⟩ := buildLoop_invariants peer bsize
      (sweep now s.reqs (now + cfg.max_batch_timeout) s.retryQ s.queue).1
      (sweep now s.reqs (now + cfg.max_batch_timeout) s.retryQ s.queue).2.2
      s.reqs
      (sweep now s.reqs (now + cfg.max_batch_timeout) s.retryQ s.queue).2.1
      [] [] [] q2 reqs2 retryQ2 invs2 futs2 hb
    refine ⟨?_, ?_, ?_, ?_⟩
    · intro g
      rw [← hs2]
      exact hc1 g
    · intro g p hp
      rw [← hs2]
      exact hc2 g p hp
    · intro fid hfid
      rw [← hfuts]
      exact hc3 fid hfid (List.not_mem_nil fid)
    · intro it hq hires hitried
      rw [← hs2]
      refine hc4 it (Or.inl ?_) hires hitried
      exact sweep_queue_mem now s.reqs _ s.retryQ s.queue it hq

/-- Every externally observable step preserves membership of any peer in
any request's peers_tried set. -/
theorem step_tried_mono (cfg : Config) {s s2 : FState}
    (h : Step cfg s s2) (p g : Nat) (hp : p ∈ triedOf s.reqs g) :
    p ∈ triedOf s2.reqs g := by
  cases h with
  | submit pairs =>
    rw [triedOf_fetch_blocks]
    exact hp
  | deliver name b =>
    rw [triedOf_handle_msg]
    exact hp
  | batch bsize peer now r hgb =>
    obtain ⟨s3, futs, invs⟩ := r
    exact (get_batch_invariants cfg s bsize peer now s3 futs invs hgb).2.1 g p hp

/-- C7: once a peer is in a request's peers_tried set, it stays there
across every later step; no batch ever built for that peer afterwards
contains the request; and if the request is unresolved and sits in the
request queue, building such a batch keeps it in the queue (set aside and
re-pushed, not dropped). -/
theorem tried_peer_never_rebatched (cfg : Config) (s s2 : FState)
    (peer fid : Nat)
    (hsteps : Relation.ReflTransGen (Step cfg) s s2)
    (htried : peer ∈ triedOf s.reqs fid) :
    peer ∈ triedOf s2.reqs fid ∧
    ∀ bsize : Nat, ∀ now : ℚ,
      fid ∉ batchFuts (get_batch cfg s2 bsize peer now) ∧
      ∀ it : QItem, it.fid = fid → it ∈ s2.queue →
        resultOf s2.reqs fid = none →
        it ∈ (afterBatch s2 (get_batch cfg s2 bsize peer now)).queue := by
  have hmono : peer ∈ triedOf s2.reqs fid := by
    induction hsteps with
    | refl => exact htried
    | tail hpre hstep ih => exact step_tried_mono cfg hstep peer fid ih
  refine ⟨hmono, ?_⟩
  intro bsize now
  constructor
  · rcases hgb : get_batch cfg s2 bsize peer now with _ | r
    · simp [batchFuts]
    · obtain ⟨s3, futs, invs⟩ := r
      have hni := (get_batch_invariants cfg s2 bsize peer now s3 futs invs
        hgb).2.2.1 fid hmono
      simpa [batchFuts] using hni
  · intro it hfid hq hres
    rcases hgb : get_batch cfg s2 bsize peer now with _ | r
    · simpa [afterBatch] using hq
    · obtain ⟨s3, futs, invs⟩ := r
      have hni := (get_batch_invariants cfg s2 bsize peer now s3 futs invs
        hgb).2.2.2 it hq (by rw [hfid]; exact hres) (by rw [hfid]; exact hmono)
      simpa [afterBatch] using hni

/-- The state used by the C7 witness: request 0 already tried by peer 7,
request 1 fresh. -/
def sTried : FState :=
  ⟨[⟨0, 10, 0⟩, ⟨1, 20, 1⟩], [], [(10, 0), (20, 1)],
    [⟨none, [7]⟩, ⟨none, []⟩]⟩

/-- C7 witness: building a batch of size 1 for peer 7 skips request 0
(which 7 already tried), batches request 1 instead, and request 0's tuple
is still in the queue afterwards. -/
theorem tried_peer_never_rebatched_witness :
    (0 : Nat) ∉ batchFuts (get_batch ⟨200, 1, 3, 12⟩ sTried 1 7 0) ∧
    (⟨0, 10, 0⟩ : QItem) ∈ (afterBatch sTried
      (get_batch ⟨200, 1, 3, 12⟩ sTried 1 7 0)).queue := by
  have h := tried_peer_never_rebatched ⟨200, 1, 3, 12⟩ sTried sTried 7 0
    Relation.ReflTransGen.refl (by decide)
  exact ⟨(h.2 1 0).1, (h.2 1 0).2 ⟨0, 10, 0⟩ rfl (by decide) (by decide)⟩

/-! ### C6: fetch_blocks returns handles 1:1 in input order -/

theorem mkItems_mem (n : Nat) (pairs : List (Nat × Int)) (i : Nat)
    (hi : i < pairs.length) :
    (⟨(pairs.get ⟨i, hi⟩).2, (pairs.get ⟨i, hi⟩).1, n + i⟩ : QItem) ∈
      mkItems n pairs := by
  induction pairs generalizing n i with
  | nil => simp at hi
  | cons p rest ih =>
    obtain ⟨bh, pri⟩ := p
    cases i with
    | zero => simp [mkItems]
    | succ j =>
      have h2 := ih (n + 1) j (by simpa using hi)
      apply List.mem_cons_of_mem
      rw [show n + (j + 1) = n + 1 + j by omega]
      exact h2

theorem fetch_blocks_lookup_of_not_mem (s : FState)
    (pairs : List (Nat × Int)) (h : Nat) (hnot : ∀ p ∈ pairs, p.1 ≠ h) :
    lookupTab (fetch_blocks s pairs).1.table h = lookupTab s.table h := by
  induction pairs generalizing s with
  | nil => rfl
  | cons p rest ih =>
    obtain ⟨bh, pri⟩ := p
    simp only [fetch_blocks]
    rw [ih _ (fun p hp => hnot p (List.mem_cons_of_mem _ hp))]
    show lookupTab (tabInsert s.table bh s.reqs.length) h = lookupTab s.table h
    rw [lookupTab_insert]
    rw [if_neg (fun he => hnot (bh, pri) (List.mem_cons_self _ _) he.symm)]

theorem fetch_blocks_lookup_at (pairs : List (Nat × Int)) (i : Nat)
    (hi : i < pairs.length) :
    ∀ s : FState,
      (∀ j, ∀ hj : j < pairs.length, i < j →
        (pairs.get ⟨j, hj⟩).1 ≠ (pairs.get ⟨i, hi⟩).1) →
      lookupTab (fetch_blocks s pairs).1.table (pairs.get ⟨i, hi⟩).1 =
        some (s.reqs.length + i) := by
  induction pairs generalizing i with
  | nil => simp at hi
  | cons p rest ih =>
    obtain ⟨bh, pri⟩ := p
    cases i with
    | zero =>
      intro s hlast
      simp only [fetch_blocks]
      rw [fetch_blocks_lookup_of_not_mem]
      · show lookupTab (tabInsert s.table bh s.reqs.length) bh = _
        rw [lookupTab_insert, if_pos rfl, Nat.add_zero]
      · intro p hp
        obtain ⟨j, hpj⟩ := List.mem_iff_get.mp hp
        have h3 := hlast (j.1 + 1) (by simp [j.isLt]) (Nat.succ_pos j.1)
        rw [← hpj]
        exact h3
    | succ k =>
      intro s hlast
      have hk : k < rest.length := by simpa using hi
      have hlast2 : ∀ j, ∀ hj : j < rest.length, k < j →
          (rest.get ⟨j, hj⟩).1 ≠ (rest.get ⟨k, hk⟩).1 := by
        intro j hj hkj
        have h3 := hlast (j + 1) (by simpa using hj) (by omega)
        exact h3
      simp only [fetch_blocks]
      have h4 := ih k hk (⟨qinsert ⟨pri, bh, s.reqs.length⟩ s.queue, s.retryQ,
        tabInsert s.table bh s.reqs.length, s.reqs ++ [⟨none, []⟩]⟩ : FState)
        hlast2
      simp only [List.length_append, List.length_singleton] at h4
      rw [show s.reqs.length + 1 + k = s.reqs.length + (k + 1) by omega] at h4
      exact h4

/-- C6: fetch_blocks on a list of N (hash, priority) pairs returns
exactly N futures, the consecutive slot indices, in input order, without
touching the retry queue (and without blocking — it is a total function);
the i-th pair's request is created unresolved with an empty peers_tried
set, its tuple (priority, hash, slot) is in the request queue, and — when
no later pair reuses its hash — the dictionary maps its hash to its slot
(a later pair with the same hash overwrites the entry). -/
theorem fetch_blocks_submit_spec (s : FState) (pairs : List (Nat × Int))
    (i : Nat) (hi : i < pairs.length) :
    (fetch_blocks s pairs).2.length = pairs.length ∧
    (fetch_blocks s pairs).2 = List.range' s.reqs.length pairs.length ∧
    (fetch_blocks s pairs).1.retryQ = s.retryQ ∧
    resultOf (fetch_blocks s pairs).1.reqs (s.reqs.length + i) = none ∧
    triedOf (fetch_blocks s pairs).1.reqs (s.reqs.length + i) = [] ∧
    (⟨(pairs.get ⟨i, hi⟩).2, (pairs.get ⟨i, hi⟩).1, s.reqs.length + i⟩ : QItem) ∈
      (fetch_blocks s pairs).1.queue ∧
    ((∀ j, ∀ hj : j < pairs.length, i < j →
        (pairs.get ⟨j, hj⟩).1 ≠ (pairs.get ⟨i, hi⟩).1) →
      lookupTab (fetch_blocks s pairs).1.table (pairs.get ⟨i, hi⟩).1 =
        some (s.reqs.length + i)) := by
  refine ⟨?_, fetch_blocks_snd s pairs, fetch_blocks_retryQ s pairs, ?_, ?_, ?_, ?_⟩
  · rw [fetch_blocks_snd, List.length_range']
  · rw [fetch_blocks_reqs]
    unfold resultOf
    rw [getD_append_ge _ _ _ _ (Nat.le_add_right _ _), Nat.add_sub_cancel_left,
      getD_replicate _ _ _ _ hi]
  · rw [fetch_blocks_reqs]
    unfold triedOf
    rw [getD_append_ge _ _ _ _ (Nat.le_add_right _ _), Nat.add_sub_cancel_left,
      getD_replicate _ _ _ _ hi]
  · exact (fetch_blocks_queue_perm s pairs).mem_iff.mpr
      (List.mem_append_left _ (mkItems_mem s.reqs.length pairs i hi))
  · exact fetch_blocks_lookup_at pairs i hi s

/-- C6 witness: submitting three pairs (one hash duplicated) returns the
three slots 0, 1, 2 in order; pair 1's tuple is queued untried and its
hash maps to slot 1. -/
theorem fetch_blocks_submit_spec_witness :
    (fetch_blocks emptyState [(5, 0), (6, 1), (5, 2)]).2.length = 3 ∧
    (fetch_blocks emptyState [(5, 0), (6, 1), (5, 2)]).2 = [0, 1, 2] ∧
    resultOf (fetch_blocks emptyState [(5, 0), (6, 1), (5, 2)]).1.reqs 1 = none ∧
    triedOf (fetch_blocks emptyState [(5, 0), (6, 1), (5, 2)]).1.reqs 1 = [] ∧
    (⟨1, 6, 1⟩ : QItem) ∈ (fetch_blocks emptyState [(5, 0), (6, 1), (5, 2)]).1.queue ∧
    lookupTab (fetch_blocks emptyState [(5, 0), (6, 1), (5, 2)]).1.table 6 =
      some 1 := by
  have h := fetch_blocks_submit_spec emptyState [(5, 0), (6, 1), (5, 2)] 1
    (by norm_num)
  refine ⟨h.1, by rw [h.2.1]; rfl, h.2.2.2.1, h.2.2.2.2.1, h.2.2.2.2.2.1, ?_⟩
  exact h.2.2.2.2.2.2 (by decide)
